import Mathlib

set_option maxRecDepth 100000

/-!
Verification of the QuantumEncoder core (app.py): the Kryon-33 letter-code
mapping, the Russian number speller, the EncodingEngine metrics, the
classification / fractal-unfold routines, the soft-dedup pass and the
library index rebuild.  Python ints are modelled as ℤ/ℕ, Python floats as
exact reals (ℝ), strings as Lean `String` (lists of unicode scalar chars,
matching Python code-point semantics), and code that can raise an
exception returns `Option` (`none` = unhandled exception).
-/

namespace QuantumEncoder

/-! ### Character-level machinery

Char predicates are expressed through `Char.toNat` (the unicode code
point), which is exactly what Python string comparisons and the regular
expression ranges in `app.py` operate on.  Cyrillic А..Я are code points
1040..1071, Ё is 1025, а..я are 1072..1103, ё is 1105. -/

/-- Code-point version of the KRYON_MAP dictionary of app.py
(А:1, Б:2, В:3, Г:4, Д:5, Е:6, Ё:7, Ж:8, З:9, И:10, Й:11, К:12, Л:13,
М:14, Н:15, О:16, П:17, Р:18, С:19, Т:20, У:21, Ф:22, Х:23, Ц:24, Ч:25,
Ш:26, Щ:27, Ь:28, Ы:29, Ъ:30, Э:31, Ю:32, Я:33); keys are written as
code points (1040 = А, …, 1071 = Я, 1025 = Ё). -/
def kryonCode (n : ℕ) : ℕ :=
  if n = 1040 then 1        -- А
  else if n = 1041 then 2   -- Б
  else if n = 1042 then 3   -- В
  else if n = 1043 then 4   -- Г
  else if n = 1044 then 5   -- Д
  else if n = 1045 then 6   -- Е
  else if n = 1025 then 7   -- Ё
  else if n = 1046 then 8   -- Ж
  else if n = 1047 then 9   -- З
  else if n = 1048 then 10  -- И
  else if n = 1049 then 11  -- Й
  else if n = 1050 then 12  -- К
  else if n = 1051 then 13  -- Л
  else if n = 1052 then 14  -- М
  else if n = 1053 then 15  -- Н
  else if n = 1054 then 16  -- О
  else if n = 1055 then 17  -- П
  else if n = 1056 then 18  -- Р
  else if n = 1057 then 19  -- С
  else if n = 1058 then 20  -- Т
  else if n = 1059 then 21  -- У
  else if n = 1060 then 22  -- Ф
  else if n = 1061 then 23  -- Х
  else if n = 1062 then 24  -- Ц
  else if n = 1063 then 25  -- Ч
  else if n = 1064 then 26  -- Ш
  else if n = 1065 then 27  -- Щ
  else if n = 1068 then 28  -- Ь
  else if n = 1067 then 29  -- Ы
  else if n = 1066 then 30  -- Ъ
  else if n = 1069 then 31  -- Э
  else if n = 1070 then 32  -- Ю
  else if n = 1071 then 33  -- Я
  else 0                    -- KRYON_MAP.get(ch, 0) default

/-- `KRYON_MAP.get(ch, 0)` of app.py. -/
def kryonMap (c : Char) : ℕ := kryonCode c.toNat

/-- Membership in the regex class `[А-ЯЁ]` used by `normalize`. -/
def isRuLetter (c : Char) : Bool :=
  (1040 ≤ c.toNat && c.toNat ≤ 1071) || c.toNat == 1025

/-- Python whitespace (the `\s` class / `str.strip()` default set),
restricted to its ASCII members, which is all the strings of this
repository ever contain. -/
def isPySpace (c : Char) : Bool :=
  c.toNat == 32 || c.toNat == 9 || c.toNat == 10 ||
    c.toNat == 13 || c.toNat == 11 || c.toNat == 12

/-- Python `str.upper()` on the alphabets the repository uses
(Cyrillic а..я/ё and ASCII a..z); every other character is unchanged. -/
def ruUpperChar (c : Char) : Char :=
  if 1072 ≤ c.toNat ∧ c.toNat ≤ 1103 then Char.ofNat (c.toNat - 32)
  else if c.toNat = 1105 then Char.ofNat 1025
  else if 97 ≤ c.toNat ∧ c.toNat ≤ 122 then Char.ofNat (c.toNat - 32)
  else c

/-- Python `str.lower()` on the same alphabets. -/
def ruLowerChar (c : Char) : Char :=
  if 1040 ≤ c.toNat ∧ c.toNat ≤ 1071 then Char.ofNat (c.toNat + 32)
  else if c.toNat = 1025 then Char.ofNat 1105
  else if 65 ≤ c.toNat ∧ c.toNat ≤ 90 then Char.ofNat (c.toNat + 32)
  else c

/-- `str.upper()`. -/
def pyUpper (s : String) : String := ⟨s.data.map ruUpperChar⟩

/-- `str.lower()`. -/
def pyLower (s : String) : String := ⟨s.data.map ruLowerChar⟩

/-- `str.strip()`: drop whitespace from both ends. -/
def pyStrip (s : String) : String :=
  ⟨((s.data.dropWhile isPySpace).reverse.dropWhile isPySpace).reverse⟩

/-- `normalize` of app.py: `re.sub(r"[^А-ЯЁ]", "", t.upper())`. -/
def normalize (t : String) : String :=
  ⟨(pyUpper t).data.filter isRuLetter⟩

/-- `sum(KRYON_MAP.get(ch, 0) for ch in s)`. -/
def codeOf (s : String) : ℕ := (s.data.map kryonMap).sum

/-! ### Russian number speller (NumberSpeller) -/

def HUNDS : List String :=
  ["", "СТО", "ДВЕСТИ", "ТРИСТА", "ЧЕТЫРЕСТА", "ПЯТЬСОТ", "ШЕСТЬСОТ",
   "СЕМЬСОТ", "ВОСЕМЬСОТ", "ДЕВЯТЬСОТ"]

def TENS : List String :=
  ["", "ДЕСЯТЬ", "ДВАДЦАТЬ", "ТРИДЦАТЬ", "СОРОК", "ПЯТЬДЕСЯТ",
   "ШЕСТЬДЕСЯТ", "СЕМЬДЕСЯТ", "ВОСЕМЬДЕСЯТ", "ДЕВЯНОСТО"]

def UNITS : List String :=
  ["", "ОДИН", "ДВА", "ТРИ", "ЧЕТЫРЕ", "ПЯТЬ", "ШЕСТЬ", "СЕМЬ",
   "ВОСЕМЬ", "ДЕВЯТЬ"]

def UNITS_FEM : List String :=
  ["", "ОДНА", "ДВЕ", "ТРИ", "ЧЕТЫРЕ", "ПЯТЬ", "ШЕСТЬ", "СЕМЬ",
   "ВОСЕМЬ", "ДЕВЯТЬ"]

def TEENS : List String :=
  ["ДЕСЯТЬ", "ОДИННАДЦАТЬ", "ДВЕНАДЦАТЬ", "ТРИНАДЦАТЬ", "ЧЕТЫРНАДЦАТЬ",
   "ПЯТНАДЦАТЬ", "ШЕСТНАДЦАТЬ", "СЕМНАДЦАТЬ", "ВОСЕМНАДЦАТЬ", "ДЕВЯТНАДЦАТЬ"]

/-- Python `sep.join(parts)`. -/
def joinSep (sep : String) : List String → String
  | [] => ""
  | [s] => s
  | s :: rest => s ++ sep ++ joinSep sep rest

/-- `_number_to_words_0_999` of app.py.  Callers only pass `n ≤ 999`;
list access is modelled with `getD` (Python would raise IndexError for a
digit ≥ 10, which cannot happen). -/
def number_to_words_0_999 (n : ℕ) (feminine : Bool) : String :=
  if n = 0 then "НОЛЬ"
  else
    let units_arr := if feminine then UNITS_FEM else UNITS
    let h := n / 100
    let t := (n % 100) / 10
    let u := n % 10
    let out : List String :=
      (if h ≠ 0 then [HUNDS.getD h ""] else []) ++
        (if t = 1 then [TEENS.getD u ""]
         else (if t ≠ 0 then [TENS.getD t ""] else []) ++
              (if u ≠ 0 then [units_arr.getD u ""] else []))
    joinSep " " out

/-- `number_to_words_ru_0_999999` of app.py. -/
def number_to_words_ru_0_999999 (n : ℕ) : String :=
  if n = 0 then "НОЛЬ"
  else if n < 1000 then number_to_words_0_999 n false
  else
    let T := n / 1000
    let R := n % 1000
    let Tm100 := T % 100
    let Tm10 := T % 10
    let thousand_word : String :=
      if Tm100 = 11 ∨ Tm100 = 12 ∨ Tm100 = 13 ∨ Tm100 = 14 then "ТЫСЯЧ"
      else if Tm10 = 1 then "ТЫСЯЧА"
      else if Tm10 = 2 ∨ Tm10 = 3 ∨ Tm10 = 4 then "ТЫСЯЧИ"
      else "ТЫСЯЧ"
    let thousands_str := number_to_words_0_999 T true
    let parts := [thousands_str, thousand_word] ++
      (if 0 < R then [number_to_words_0_999 R false] else [])
    joinSep " " parts

/-- `re.sub(r"[\s\t\n\r\-]+", "", words)`. -/
def stripWsHyphen (s : String) : String :=
  ⟨s.data.filter (fun c => !(isPySpace c || c == '-'))⟩

/-- `calc_l2c_from_l1` of app.py: returns `(l2c, words, glued, out_of_range)`;
`none` components model Python `None`. -/
def calc_l2c_from_l1 (l1 : ℤ) : Option ℤ × Option String × Option String × Bool :=
  if l1 < 0 ∨ l1 > 999999 then (none, none, none, true)
  else
    let words := number_to_words_ru_0_999999 l1.toNat
    let glued := normalize (stripWsHyphen words)
    ((some (codeOf glued : ℤ)), some words, some glued, false)

/-- `calc_l1_from_string` of app.py: returns `(None, 0)` when the
normalized string is empty, else `(normalized, code)`. -/
def calc_l1_from_string (s : String) : Option String × ℕ :=
  let w := normalize s
  if w = "" then (none, 0) else (some w, codeOf w)

-- sanity checks against hand-computed values (Н=15 О=16 Л=13 Ь=28; О=16 Д=5 И=10 Н=15)
example : calc_l2c_from_l1 0 = (some 72, some "НОЛЬ", some "НОЛЬ", false) := by decide
example : calc_l2c_from_l1 1 = (some 46, some "ОДИН", some "ОДИН", false) := by decide
example : calc_l2c_from_l1 1000000 = (none, none, none, true) := by decide
example : calc_l2c_from_l1 (-1) = (none, none, none, true) := by decide
example : normalize "свет!" = "СВЕТ" := by decide
example : calc_l1_from_string "abc" = (none, 0) := by decide

/-! ### EncodingEngine metrics

Python floats are modelled by exact reals.  `metrics` returns `none`
exactly when the Python function raises `ZeroDivisionError`: at the step
`w = l2c / l1` when `l1 == 0`, or at the `ratio` denominator when
`l2c + l1 == 0`. -/

/-- `APP_CFG["sigma_Z"]` default value (config.json default 0.80). -/
noncomputable def sigma_Z : ℝ := 0.80

/-- `metrics(l1, l2c)` of app.py, returning `(w, C, Hm, Z)`;
`none` models an unhandled `ZeroDivisionError`. -/
noncomputable def metrics (l1 l2c : ℤ) : Option (ℝ × ℝ × ℝ × ℝ) :=
  if l1 = 0 then none
  else if l2c + l1 = 0 then none
  else
    let w : ℝ := (l2c : ℝ) / (l1 : ℝ)
    let rv : ℝ := |(l2c : ℝ) - (l1 : ℝ)| / ((l2c : ℝ) + (l1 : ℝ))
    let Cv : ℝ := Real.cos (Real.pi / 2 * rv) ^ 2
    let Hm_raw : ℝ := 1 -
      min (|w - 1| / 1)
        (min (|w - 1.25| / 1.25)
          (min (|w - 1.33| / 1.33)
            (min (|w - 1.5| / 1.5) (min (|w - 2| / 2) (|w - 3| / 3)))))
    let Hm : ℝ := max 0 (min 1 Hm_raw)
    let Z_raw : ℝ := Cv * Hm * Real.exp (-(((w - 2) / sigma_Z) ^ 2))
    let Zv : ℝ := max 0 (min 1 Z_raw)
    some (w, Cv, Hm, Zv)

/-! ### ClassificationEngine -/

/-- `cluster_by_w` of app.py.  The Python float argument is modelled by an
exact rational (every float is a rational, and all comparisons used here
are exact on rationals). -/
def cluster_by_w (w : ℚ) : String × String :=
  if 1.0 ≤ w ∧ w < 1.6 then ("phi", "φ-ядро")
  else if 1.6 ≤ w ∧ w < 2.7 then ("e", "e")
  else if 2.7 ≤ w ∧ w < 3.2 then ("e-pi", "e–π")
  else ("pi", "π")

/-- `(Z + C + Hm) / 3.0` of analyze_word. -/
noncomputable def q_total_of (Z C Hm : ℝ) : ℝ := (Z + C + Hm) / 3

/-- `fii = 10 * (0.4*Z + 0.3*q_total + 0.2*C + 0.1*Hm - 0.5)` of analyze_word. -/
noncomputable def fii_of (Z C Hm : ℝ) : ℝ :=
  10 * (0.4 * Z + 0.3 * q_total_of Z C Hm + 0.2 * C + 0.1 * Hm - 0.5)

/-- The category component of `fii_bar` of app.py (the textual bar drawn
next to it is pure display and is not modelled). -/
noncomputable def fii_bar_category (fii : ℝ) : String :=
  if fii ≤ -6 then "🔴 Разрушитель — создаёт напряжение, дестабилизирует поле"
  else if fii ≤ -2 then "🟠 Ослабитель — рассеивает энергию, снижает фокус"
  else if fii < 2 then "⚪ Нейтральное — сбалансированное, не влияет заметно"
  else if fii < 6 then "🟢 Гармонизатор — усиливает гармонию и согласие"
  else "🔵 Резонатор — максимально усиливает поле, световой пик"

/-! ### FractalUnfolder -/

/-- The w-accumulation loop of `fractal_unfold` (app.py lines 430-439):
iterate at most `fuel` times; break (returning the list so far) when
`calc_l2c_from_l1` reports out-of-range or a `None` l2c; propagate `none`
when the `metrics` call raises.  The breath pattern, counts and the
interpretation are derived from this list afterwards. -/
noncomputable def fractal_w_aux : ℤ → ℕ → Option (List ℝ)
  | _, 0 => some []
  | curr, fuel + 1 =>
    match calc_l2c_from_l1 curr with
    | (some l2c, _, _, false) =>
      match metrics curr l2c with
      | none => none
      | some (w, _, _, _) => (fractal_w_aux l2c fuel).map (fun ws => w :: ws)
    | _ => some []

/-- The `w_values` list produced by `fractal_unfold(l1)` (12 iterations). -/
noncomputable def fractal_w_values (l1 : ℤ) : Option (List ℝ) :=
  fractal_w_aux l1 12

/-- The successive values of `curr_l1` inside `fractal_unfold`:
`curr_seq l1 0 = l1` and `curr_seq l1 (k+1)` is the L2C computed from
`curr_seq l1 k` (−1 as a sentinel outside the range, where the Python
loop has already stopped). -/
def l2c_step (x : ℤ) : ℤ := ((calc_l2c_from_l1 x).1).getD (-1)

/-- See `l2c_step`. -/
def curr_seq (l1 : ℤ) : ℕ → ℤ
  | 0 => l1
  | k + 1 => l2c_step (curr_seq l1 k)

/-- The hypothesis of the fractal-termination property: the initial L1 and
every intermediate L2C seen by the 12 loop iterations lie in [0, 999999]. -/
def inter_in_range (l1 : ℤ) : Bool :=
  (List.range 12).all fun k => decide (0 ≤ curr_seq l1 k ∧ curr_seq l1 k ≤ 999999)

/-! ### Deduplicator

A DataFrame with the LIB_COLS column contract is modelled as a list of
rows.  The `allowed` cell is modelled as a Bool (`parse_bool` is the
identity on booleans); the text cells are strings (a pandas NaN cell in a
text column reads back as the string "nan", which the code already
handles explicitly).  `pd.DataFrame.groupby(keys)` sorts the distinct
keys ascending (pandas default `sort=True`, lexicographic on the string
tuple, i.e. by unicode code point exactly as Lean's `String` order) and
keeps the original row order inside each group. -/

structure LibRow where
  word : String
  sphere : String
  tone : String
  allowed : Bool
  field : String
  role : String
  notes : String
  l1 : Option ℤ
  l2c : Option ℤ
  w : Option ℝ
  C : Option ℝ
  Hm : Option ℝ
  Z : Option ℝ

/-- The `(word, sphere, tone)` dedup key of a row. -/
def key_of (r : LibRow) : String × String × String := (r.word, r.sphere, r.tone)

/-- The `notes_str` cleanup inside `force_recalc_row`:
`str(notes).strip()`, then `""` if it lowercases to `"nan"`. -/
def notes_clean (notes : String) : String :=
  let s := pyStrip notes
  if pyLower s = "nan" then "" else s

/-- `force_recalc_row` of app.py.  `l1?`/`l2c?`/`field?`/`role?` model the
Python `None` defaults; the result is `none` exactly when the `metrics`
call raises (`ZeroDivisionError`), which the Python function does not
catch. -/
noncomputable def force_recalc_row (word sphere tone : String) (allowed : Bool)
    (notes : String) (l1? l2c? : Option ℤ) (field? role? : Option String) :
    Option LibRow :=
  let l1 : ℤ := match l1? with
    | some v => v
    | none => ((calc_l1_from_string word).2 : ℤ)
  let build : ℤ → Option LibRow := fun l2c =>
    match metrics l1 l2c with
    | none => none
    | some (w, Cv, Hm, Zv) =>
      some ⟨word, sphere, tone, allowed, pyStrip (field?.getD ""),
        pyStrip (role?.getD ""), notes_clean notes,
        some l1, some l2c, some w, some Cv, some Hm, some Zv⟩
  match l2c? with
  | some l2c => build l2c
  | none =>
    match calc_l2c_from_l1 l1 with
    | (some l2c, _, _, false) => build l2c
    | _ =>
      -- the out_of_range minimal result (l1/l2c/w/C/Hm/Z are Python None)
      some ⟨word, sphere, tone, allowed, field?.getD "", role?.getD "",
        notes, none, none, none, none, none, none⟩

/-- `uniq_notes` inner loop of soft_dedup: collect the stripped, non-empty,
not-yet-seen values in order. -/
def uniq_notes_list : List String → List String → List String
  | out, [] => out
  | out, x :: rest =>
    let s := pyStrip x
    if s ≠ "" ∧ s ∉ out then uniq_notes_list (out ++ [s]) rest
    else uniq_notes_list out rest

/-- `uniq_notes(series, sep=" | ")` of soft_dedup. -/
def uniq_notes (l : List String) : String := joinSep " | " (uniq_notes_list [] l)

/-- `pick_first_nonempty` of soft_dedup. -/
def pick_first_nonempty : List String → String
  | [] => ""
  | x :: rest =>
    let s := pyStrip x
    if s ≠ "" then s else pick_first_nonempty rest

/-- Outcome of handling one `(word, sphere, tone)` group in soft_dedup:
the group is skipped (normalized word empty), contributes a canonical
row, or raises out of the whole pass. -/
inductive MergeOutcome where
  | skip
  | crash
  | ok (r : LibRow)

/-- The body of the `for (word, sphere, tone), group in grouped` loop of
soft_dedup. -/
noncomputable def merge_group (k : String × String × String)
    (rows : List LibRow) : MergeOutcome :=
  let word_norm := if k.1 ≠ "" then normalize (pyUpper (pyStrip k.1)) else ""
  if word_norm = "" then .skip
  else
    let allowedJ := rows.any (·.allowed)
    let fieldJ := pick_first_nonempty (rows.map (·.field))
    let roleJ := pick_first_nonempty (rows.map (·.role))
    let notesJ := uniq_notes (rows.map (·.notes))
    let sphereArg := if k.2.1 ≠ "" then pyStrip k.2.1 else "прочее"
    let toneArg := if k.2.2 ≠ "" then pyStrip k.2.2 else "neutral"
    match force_recalc_row word_norm sphereArg toneArg allowedJ notesJ
        none none
        (if fieldJ ≠ "" then some fieldJ else none)
        (if roleJ ≠ "" then some roleJ else none) with
    | some r => .ok r
    | none => .crash

/-- Lexicographic order on the `(word, sphere, tone)` key tuples, the
order in which pandas `groupby(..., sort=True)` yields the groups. -/
def key_le (a b : String × String × String) : Prop :=
  a.1 < b.1 ∨ (a.1 = b.1 ∧
    (a.2.1 < b.2.1 ∨ (a.2.1 = b.2.1 ∧ a.2.2 ≤ b.2.2)))

instance : DecidableRel key_le := fun a b =>
  inferInstanceAs (Decidable (a.1 < b.1 ∨ (a.1 = b.1 ∧
    (a.2.1 < b.2.1 ∨ (a.2.1 = b.2.1 ∧ a.2.2 ≤ b.2.2)))))

/-- The sorted list of distinct group keys of a collection. -/
def sorted_keys (df : List LibRow) : List (String × String × String) :=
  List.insertionSort key_le (df.map key_of).dedup

/-- The group loop of soft_dedup over an explicit key list; `none` models
an exception escaping the whole pass. -/
noncomputable def soft_dedup_loop (df : List LibRow) :
    List (String × String × String) → Option (List LibRow)
  | [] => some []
  | k :: ks =>
    match merge_group k (df.filter (fun r => key_of r = k)) with
    | .crash => none
    | .skip => soft_dedup_loop df ks
    | .ok r => (soft_dedup_loop df ks).map (fun rest => r :: rest)

/-- `soft_dedup` of app.py (an empty DataFrame is returned unchanged). -/
noncomputable def soft_dedup (df : List LibRow) : Option (List LibRow) :=
  match df with
  | [] => some []
  | _ => soft_dedup_loop df (sorted_keys df)

/-! ### LibraryIndex rebuild

`rebuild_indexes` walks the collection once and fills the two dicts
INDEX_L1 / INDEX_L2C (modelled as functions from code to word list, empty
list = key absent).  A row's numeric cell is modelled as the result of
the guarded `int(float(...))` conversion: `some v` when it parses,
`none` when the cell is missing/NaN or the conversion raises (the
per-field `try/except` swallows the error and the row contributes
nothing to that axis). -/

structure IdxRow where
  word : String
  l1 : Option ℤ
  l2c : Option ℤ

/-- Appending a word under a code key, Python
`if word not in INDEX[v]: INDEX[v].append(word)`. -/
def idx_insert (idx : ℤ → List String) (v : ℤ) (w : String) : ℤ → List String :=
  fun x => if x = v then (if w ∈ idx v then idx v else idx v ++ [w]) else idx x

/-- One iteration of the `for _, r in df.iterrows()` loop of
`rebuild_indexes`. -/
def rebuild_step (idx : (ℤ → List String) × (ℤ → List String)) (r : IdxRow) :
    (ℤ → List String) × (ℤ → List String) :=
  let wordU := pyUpper r.word
  if wordU = "" then idx
  else
    (match r.l1 with | some v => idx_insert idx.1 v wordU | none => idx.1,
     match r.l2c with | some v => idx_insert idx.2 v wordU | none => idx.2)

/-- `rebuild_indexes(df)` of app.py: the resulting (INDEX_L1, INDEX_L2C). -/
def rebuild_indexes (df : List IdxRow) : (ℤ → List String) × (ℤ → List String) :=
  df.foldl rebuild_step (fun _ => [], fun _ => [])

/-! ## Basic facts about calc_l2c_from_l1 and metrics -/

theorem calc_l2c_in_range_eq (l1 : ℤ) (h0 : 0 ≤ l1) (h1 : l1 ≤ 999999) :
    calc_l2c_from_l1 l1 =
      (some (codeOf (normalize (stripWsHyphen (number_to_words_ru_0_999999 l1.toNat))) : ℤ),
       some (number_to_words_ru_0_999999 l1.toNat),
       some (normalize (stripWsHyphen (number_to_words_ru_0_999999 l1.toNat))), false) := by
  simp only [calc_l2c_from_l1]
  rw [if_neg (by omega)]

theorem calc_l2c_fst_nonneg {l1 v : ℤ} (h : (calc_l2c_from_l1 l1).1 = some v) : 0 ≤ v := by
  by_cases hr : l1 < 0 ∨ l1 > 999999
  · simp [calc_l2c_from_l1, hr] at h
  · push_neg at hr
    rw [calc_l2c_in_range_eq l1 hr.1 hr.2] at h
    obtain rfl : (codeOf _ : ℤ) = v := Option.some_injective _ h
    positivity

theorem metrics_eq_none_of_l1_zero (l2c : ℤ) : metrics 0 l2c = none := by
  simp [metrics]

theorem metrics_eq_some (l1 l2c : ℤ) (h1 : l1 ≠ 0) (h2 : l2c + l1 ≠ 0) :
    ∃ w Cv Hm Zv, metrics l1 l2c = some (w, Cv, Hm, Zv) := by
  simp only [metrics]
  rw [if_neg h1, if_neg h2]
  exact ⟨_, _, _, _, rfl⟩

/-- C2: calc_l2c_from_l1 succeeds (flag False, defined l2c) on every
l1 in [0, 999999] including 999999, and returns the OutOfRange failure
(flag True, no values) on 1000000 and -1, via the flag and not an
exception. -/
theorem calc_l2c_range_contract :
    (∀ l1 : ℤ, 0 ≤ l1 → l1 ≤ 999999 →
      (calc_l2c_from_l1 l1).2.2.2 = false ∧ ((calc_l2c_from_l1 l1).1).isSome = true) ∧
    calc_l2c_from_l1 1000000 = (none, none, none, true) ∧
    calc_l2c_from_l1 (-1) = (none, none, none, true) := by
  refine ⟨?_, by decide, by decide⟩
  intro l1 h0 h1
  rw [calc_l2c_in_range_eq l1 h0 h1]
  exact ⟨rfl, rfl⟩

/-- Witness for C2 at the boundary input 999999. -/
theorem calc_l2c_range_contract_witness :
    (0 : ℤ) ≤ 999999 ∧ (999999 : ℤ) ≤ 999999 ∧
      ((calc_l2c_from_l1 999999).2.2.2 = false ∧
        ((calc_l2c_from_l1 999999).1).isSome = true) :=
  ⟨by norm_num, by norm_num,
    calc_l2c_range_contract.1 999999 (by norm_num) (by norm_num)⟩

/-- C1: for every l1 in [0, 999999], the metrics computation on the
EncodingEngine pair (l1, l2c-of-l1) fails with the division-by-zero error
exactly at l1 = 0 (the step w = l2c/l1), and returns all four metrics
normally for every in-range l1 ≥ 1. -/
theorem metrics_division_contract :
    ∀ l1 : ℤ, 0 ≤ l1 → l1 ≤ 999999 →
      ∀ l2c, (calc_l2c_from_l1 l1).1 = some l2c →
        (l1 = 0 → metrics l1 l2c = none) ∧
        (1 ≤ l1 → ∃ w Cv Hm Zv, metrics l1 l2c = some (w, Cv, Hm, Zv)) := by
  intro l1 h0 h1 l2c hl2c
  have hnn : 0 ≤ l2c := calc_l2c_fst_nonneg hl2c
  constructor
  · rintro rfl
    exact metrics_eq_none_of_l1_zero l2c
  · intro hone
    exact metrics_eq_some l1 l2c (by omega) (by omega)

/-- Witness for C1 at l1 = 0 (the failing edge) — the hypotheses are
discharged concretely and the division failure is observed. -/
theorem metrics_division_contract_witness :
    (0 : ℤ) ≤ 0 ∧ (0 : ℤ) ≤ 999999 ∧ (calc_l2c_from_l1 0).1 = some 72 ∧
      (((0 : ℤ) = 0 → metrics 0 72 = none) ∧
        (1 ≤ (0 : ℤ) → ∃ w Cv Hm Zv, metrics 0 72 = some (w, Cv, Hm, Zv))) :=
  ⟨le_refl 0, by norm_num, by decide,
    metrics_division_contract 0 (le_refl 0) (by norm_num) 72 (by decide)⟩

/-! ## Cluster bins (C5) -/

/-- C5 counterexample: at w = 1/2 the code returns the cluster "pi" even
though 1/2 is not ≥ 3.2 (and not in any of the three lower bins), so
"pi" does not cover [3.2, ∞) only. -/
theorem cluster_by_w_low_w_counterexample :
    (cluster_by_w (1/2)).1 = "pi" ∧ ¬ ((3.2 : ℚ) ≤ 1/2) ∧ ¬ ((1 : ℚ) ≤ 1/2) := by
  refine ⟨?_, by norm_num, by norm_num⟩
  unfold cluster_by_w
  rw [if_neg (by norm_num), if_neg (by norm_num), if_neg (by norm_num)]

/-- C5 amended: the three lower bins are as stated, but the "pi" label is
returned exactly when w ≥ 3.2 or w < 1.0 (the final else also catches
everything below the "phi" bin). -/
theorem cluster_by_w_bins (w : ℚ) :
    ((cluster_by_w w).1 = "phi" ↔ 1 ≤ w ∧ w < 1.6) ∧
    ((cluster_by_w w).1 = "e" ↔ 1.6 ≤ w ∧ w < 2.7) ∧
    ((cluster_by_w w).1 = "e-pi" ↔ 2.7 ≤ w ∧ w < 3.2) ∧
    ((cluster_by_w w).1 = "pi" ↔ (3.2 ≤ w ∨ w < 1)) := by
  unfold cluster_by_w
  split_ifs with h1 h2 h3
  · norm_num at h1
    exact ⟨iff_of_true rfl (by norm_num; exact h1),
      iff_of_false (by decide) (by norm_num; intro hc; linarith [h1.2]),
      iff_of_false (by decide) (by norm_num; intro hc; linarith [h1.2]),
      iff_of_false (by decide) (by norm_num; constructor <;> linarith [h1.1, h1.2])⟩
  · norm_num at h2
    exact ⟨iff_of_false (by decide) (by norm_num; intro hc; linarith [h2.1]),
      iff_of_true rfl (by norm_num; exact h2),
      iff_of_false (by decide) (by norm_num; intro hc; linarith [h2.2]),
      iff_of_false (by decide) (by norm_num; constructor <;> linarith [h2.1, h2.2])⟩
  · norm_num at h3
    exact ⟨iff_of_false (by decide) (by norm_num; intro hc; linarith [h3.1]),
      iff_of_false (by decide) (by norm_num; intro hc; linarith [h3.1]),
      iff_of_true rfl (by norm_num; exact h3),
      iff_of_false (by decide) (by norm_num; constructor <;> linarith [h3.1, h3.2])⟩
  · norm_num at h1 h2 h3
    refine ⟨iff_of_false (by decide) (by norm_num; intro hle; linarith [h1 hle]),
      iff_of_false (by decide) ?_, iff_of_false (by decide) ?_,
      iff_of_true rfl ?_⟩
    · norm_num
      intro hle
      rcases lt_or_le w 1 with hw | hw
      · linarith
      · linarith [h1 hw, h2 (by linarith [h1 hw])]
    · norm_num
      intro hle
      rcases lt_or_le w 1 with hw | hw
      · linarith
      · linarith [h3 (by linarith [h1 hw, h2 (h1 hw)])]
    · norm_num
      rcases lt_or_le w 1 with hw | hw
      · exact Or.inr hw
      · exact Or.inl (h3 (h2 (h1 hw)))

/-- Witness for C5 (amended) at the concrete input w = 2. -/
theorem cluster_by_w_bins_witness :
    ((cluster_by_w 2).1 = "phi" ↔ 1 ≤ (2:ℚ) ∧ (2:ℚ) < 1.6) ∧
    ((cluster_by_w 2).1 = "e" ↔ 1.6 ≤ (2:ℚ) ∧ (2:ℚ) < 2.7) ∧
    ((cluster_by_w 2).1 = "e-pi" ↔ 2.7 ≤ (2:ℚ) ∧ (2:ℚ) < 3.2) ∧
    ((cluster_by_w 2).1 = "pi" ↔ (3.2 ≤ (2:ℚ) ∨ (2:ℚ) < 1)) :=
  cluster_by_w_bins 2

/-! ## Metric ranges (C8) -/

/-- C8: with exact real arithmetic, for every pair of integers l1 ≥ 1 and
l2c ≥ 0 the metrics call succeeds and returns C, Hm and Z each inside
[0, 1] (C as a squared cosine, Hm and Z by the explicit clamps). -/
theorem metrics_range (l1 l2c : ℤ) (h1 : 1 ≤ l1) (h2 : 0 ≤ l2c) :
    ∃ w Cv Hm Zv, metrics l1 l2c = some (w, Cv, Hm, Zv) ∧
      (0 ≤ Cv ∧ Cv ≤ 1) ∧ (0 ≤ Hm ∧ Hm ≤ 1) ∧ (0 ≤ Zv ∧ Zv ≤ 1) := by
  simp only [metrics]
  rw [if_neg (by omega), if_neg (by omega)]
  refine ⟨_, _, _, _, rfl, ⟨sq_nonneg _, Real.cos_sq_le_one _⟩,
    ⟨le_max_left _ _, max_le (by norm_num) (min_le_left _ _)⟩,
    ⟨le_max_left _ _, max_le (by norm_num) (min_le_left _ _)⟩⟩

/-- Witness for C8 at the concrete pair (5, 3). -/
theorem metrics_range_witness :
    (1 : ℤ) ≤ 5 ∧ (0 : ℤ) ≤ 3 ∧
      ∃ w Cv Hm Zv, metrics 5 3 = some (w, Cv, Hm, Zv) ∧
        (0 ≤ Cv ∧ Cv ≤ 1) ∧ (0 ≤ Hm ∧ Hm ≤ 1) ∧ (0 ≤ Zv ∧ Zv ≤ 1) :=
  ⟨by norm_num, by norm_num, metrics_range 5 3 (by norm_num) (by norm_num)⟩

/-! ## FII bounds (C9) -/

/-- C9: for Z, C, Hm each in [0, 1] the composite
FII = 10·(0.4·Z + 0.3·Q + 0.2·C + 0.1·Hm − 0.5) stays inside [−5, 5], so
fii_bar never picks the extreme categories (Разрушитель needs FII ≤ −6,
Резонатор needs FII ≥ 6). -/
theorem fii_bounded_never_extreme :
    ∀ Z C Hm : ℝ, 0 ≤ Z → Z ≤ 1 → 0 ≤ C → C ≤ 1 → 0 ≤ Hm → Hm ≤ 1 →
      (-5 ≤ fii_of Z C Hm ∧ fii_of Z C Hm ≤ 5) ∧
      fii_bar_category (fii_of Z C Hm) ≠
        "🔴 Разрушитель — создаёт напряжение, дестабилизирует поле" ∧
      fii_bar_category (fii_of Z C Hm) ≠
        "🔵 Резонатор — максимально усиливает поле, световой пик" := by
  intro Z C Hm hZ0 hZ1 hC0 hC1 hH0 hH1
  have hb : -5 ≤ fii_of Z C Hm ∧ fii_of Z C Hm ≤ 5 := by
    unfold fii_of q_total_of
    constructor <;> nlinarith
  refine ⟨hb, ?_, ?_⟩ <;> unfold fii_bar_category <;> split_ifs with h1 h2 h3 h4 <;>
    first
      | (intro hc; exact absurd hc (by decide))
      | (exfalso; linarith [hb.1, hb.2])

/-- Witness for C9 at Z = C = Hm = 0. -/
theorem fii_bounded_never_extreme_witness :
    (0:ℝ) ≤ 0 ∧ (0:ℝ) ≤ 1 ∧
      ((-5 ≤ fii_of 0 0 0 ∧ fii_of 0 0 0 ≤ 5) ∧
        fii_bar_category (fii_of 0 0 0) ≠
          "🔴 Разрушитель — создаёт напряжение, дестабилизирует поле" ∧
        fii_bar_category (fii_of 0 0 0) ≠
          "🔵 Резонатор — максимально усиливает поле, световой пик") :=
  ⟨le_refl 0, by norm_num,
    fii_bounded_never_extreme 0 0 0 (le_refl 0) (by norm_num) (le_refl 0)
      (by norm_num) (le_refl 0) (by norm_num)⟩

/-! ## Index rebuild (C7) -/

theorem idx_insert_mem_self (idx : ℤ → List String) (v : ℤ) (w : String) :
    w ∈ idx_insert idx v w v := by
  unfold idx_insert
  rw [if_pos rfl]
  split_ifs with h
  · exact h
  · exact List.mem_append_right _ (List.mem_singleton.mpr rfl)

theorem idx_insert_mem_mono {idx : ℤ → List String} {w : String} {x : ℤ}
    (v : ℤ) (u : String) (h : w ∈ idx x) : w ∈ idx_insert idx v u x := by
  unfold idx_insert
  split_ifs with hx hu
  · exact hx ▸ h
  · exact List.mem_append_left _ (hx ▸ h)
  · exact h

theorem rebuild_step_mono {idx : (ℤ → List String) × (ℤ → List String)}
    {w : String} {x : ℤ} (r : IdxRow) :
    (w ∈ idx.1 x → w ∈ (rebuild_step idx r).1 x) ∧
    (w ∈ idx.2 x → w ∈ (rebuild_step idx r).2 x) := by
  simp only [rebuild_step]
  split_ifs with h
  · exact ⟨id, id⟩
  · constructor
    · intro hm
      cases hl : r.l1 <;> simp only [hl]
      · exact hm
      · exact idx_insert_mem_mono _ _ hm
    · intro hm
      cases hl : r.l2c <;> simp only [hl]
      · exact hm
      · exact idx_insert_mem_mono _ _ hm

theorem rebuild_foldl_mono :
    ∀ (df : List IdxRow) (idx : (ℤ → List String) × (ℤ → List String))
      (w : String) (x : ℤ),
      (w ∈ idx.1 x → w ∈ (df.foldl rebuild_step idx).1 x) ∧
      (w ∈ idx.2 x → w ∈ (df.foldl rebuild_step idx).2 x) := by
  intro df
  induction df with
  | nil => exact fun idx w x => ⟨id, id⟩
  | cons r rest ih =>
    intro idx w x
    exact ⟨fun h => (ih _ w x).1 ((rebuild_step_mono r).1 h),
           fun h => (ih _ w x).2 ((rebuild_step_mono r).2 h)⟩

theorem rebuild_step_adds {r : IdxRow} (hw : pyUpper r.word ≠ "")
    (idx : (ℤ → List String) × (ℤ → List String)) :
    (∀ v, r.l1 = some v → pyUpper r.word ∈ (rebuild_step idx r).1 v) ∧
    (∀ v, r.l2c = some v → pyUpper r.word ∈ (rebuild_step idx r).2 v) := by
  simp only [rebuild_step]
  rw [if_neg hw]
  constructor
  · intro v hv
    simp only [hv]
    exact idx_insert_mem_self _ _ _
  · intro v hv
    simp only [hv]
    exact idx_insert_mem_self _ _ _

theorem rebuild_loop_mem :
    ∀ (df : List IdxRow) (idx : (ℤ → List String) × (ℤ → List String))
      (r : IdxRow), r ∈ df → pyUpper r.word ≠ "" →
      (∀ v, r.l1 = some v → pyUpper r.word ∈ (df.foldl rebuild_step idx).1 v) ∧
      (∀ v, r.l2c = some v → pyUpper r.word ∈ (df.foldl rebuild_step idx).2 v) := by
  intro df
  induction df with
  | nil => intro idx r hr; exact absurd hr (List.not_mem_nil r)
  | cons a rest ih =>
    intro idx r hr hw
    rcases List.mem_cons.mp hr with rfl | hr
    · refine ⟨fun v hv => ?_, fun v hv => ?_⟩
      · exact (rebuild_foldl_mono rest _ _ v).1
          (((rebuild_step_adds hw idx).1 v hv))
      · exact (rebuild_foldl_mono rest _ _ v).2
          (((rebuild_step_adds hw idx).2 v hv))
    · exact ih _ r hr hw

/-- C7: after rebuild_indexes, every row whose (uppercased) word is
non-empty and whose l1 cell parses to the integer V has its word listed
under INDEX_L1[V], and symmetrically for l2c / INDEX_L2C; a row whose
numeric cell does not parse (modelled as `none`) contributes nothing, and
no row aborts the processing of the others (the fold is total). -/
theorem rebuild_indexes_membership :
    ∀ (df : List IdxRow) (r : IdxRow), r ∈ df → pyUpper r.word ≠ "" →
      (∀ v, r.l1 = some v → pyUpper r.word ∈ (rebuild_indexes df).1 v) ∧
      (∀ v, r.l2c = some v → pyUpper r.word ∈ (rebuild_indexes df).2 v) :=
  fun df r hr hw => rebuild_loop_mem df _ r hr hw

/-- Witness for C7 on a two-row collection whose first row has an
unparseable l1 cell (`none`): the second row is still indexed on both
axes. -/
theorem rebuild_indexes_membership_witness :
    (⟨"свет", some 4, some 5⟩ : IdxRow) ∈
        [(⟨"шум", none, none⟩ : IdxRow), ⟨"свет", some 4, some 5⟩] ∧
      pyUpper (⟨"свет", some 4, some 5⟩ : IdxRow).word ≠ "" ∧
      ((∀ v, (⟨"свет", some 4, some 5⟩ : IdxRow).l1 = some v →
          pyUpper (⟨"свет", some 4, some 5⟩ : IdxRow).word ∈
            (rebuild_indexes [⟨"шум", none, none⟩, ⟨"свет", some 4, some 5⟩]).1 v) ∧
        (∀ v, (⟨"свет", some 4, some 5⟩ : IdxRow).l2c = some v →
          pyUpper (⟨"свет", some 4, some 5⟩ : IdxRow).word ∈
            (rebuild_indexes [⟨"шум", none, none⟩, ⟨"свет", some 4, some 5⟩]).2 v)) :=
  ⟨by simp, by decide,
    rebuild_indexes_membership [⟨"шум", none, none⟩, ⟨"свет", some 4, some 5⟩]
      ⟨"свет", some 4, some 5⟩ (by simp) (by decide)⟩

/-! ## Bounds on the spelled-out code (C6/C10) -/

/-- The L2C value a string contributes: the code of its glued
(whitespace/hyphen-stripped, normalized) form. -/
def gcode (s : String) : ℕ := codeOf (normalize (stripWsHyphen s))

theorem gcode_append (a b : String) : gcode (a ++ b) = gcode a + gcode b := by
  simp only [gcode, codeOf, normalize, pyUpper, stripWsHyphen, String.data_append,
    List.filter_append, List.map_append, List.sum_append]

theorem gcode_join : ∀ l : List String, gcode (joinSep " " l) = (l.map gcode).sum
  | [] => by decide
  | [s] => by simp [joinSep]
  | s :: r :: t => by
    have ih := gcode_join (r :: t)
    show gcode (s ++ " " ++ joinSep " " (r :: t)) = _
    rw [gcode_append, gcode_append, ih]
    have h0 : gcode " " = 0 := by decide
    simp [h0]

theorem n999_bounds_masc : ∀ n < 1000,
    1 ≤ gcode (number_to_words_0_999 n false) ∧
      gcode (number_to_words_0_999 n false) ≤ 2000 := by decide

theorem n999_bounds_fem : ∀ n < 1000,
    1 ≤ gcode (number_to_words_0_999 n true) ∧
      gcode (number_to_words_0_999 n true) ≤ 2000 := by decide

theorem thword_bounds (a b : ℕ) :
    1 ≤ gcode (if a = 11 ∨ a = 12 ∨ a = 13 ∨ a = 14 then "ТЫСЯЧ"
        else if b = 1 then "ТЫСЯЧА"
        else if b = 2 ∨ b = 3 ∨ b = 4 then "ТЫСЯЧИ" else "ТЫСЯЧ") ∧
      gcode (if a = 11 ∨ a = 12 ∨ a = 13 ∨ a = 14 then "ТЫСЯЧ"
        else if b = 1 then "ТЫСЯЧА"
        else if b = 2 ∨ b = 3 ∨ b = 4 then "ТЫСЯЧИ" else "ТЫСЯЧ") ≤ 200 := by
  split_ifs <;> exact ⟨by decide, by decide⟩

theorem words_code_bounds : ∀ n : ℕ, 1 ≤ n → n ≤ 999999 →
    1 ≤ gcode (number_to_words_ru_0_999999 n) ∧
      gcode (number_to_words_ru_0_999999 n) ≤ 4500 := by
  intro n h1 h2
  unfold number_to_words_ru_0_999999
  rw [if_neg (by omega)]
  by_cases hlt : n < 1000
  · rw [if_pos hlt]
    exact ⟨(n999_bounds_masc n hlt).1,
      le_trans (n999_bounds_masc n hlt).2 (by norm_num)⟩
  · rw [if_neg hlt]
    dsimp only
    have hT := n999_bounds_fem (n / 1000) (by omega)
    have hW := thword_bounds ((n / 1000) % 100) ((n / 1000) % 10)
    by_cases hR : 0 < n % 1000
    · rw [if_pos hR]
      have hRb := n999_bounds_masc (n % 1000) (by omega)
      rw [show ([number_to_words_0_999 (n / 1000) true, _] ++
          [number_to_words_0_999 (n % 1000) false]) =
          [number_to_words_0_999 (n / 1000) true, _,
            number_to_words_0_999 (n % 1000) false] from rfl, gcode_join]
      simp only [List.map, List.sum_cons, List.sum_nil]
      omega
    · rw [if_neg hR]
      rw [show ([number_to_words_0_999 (n / 1000) true, _] ++ ([] : List String)) =
          [number_to_words_0_999 (n / 1000) true, _] from List.append_nil _,
        gcode_join]
      simp only [List.map, List.sum_cons, List.sum_nil]
      omega

/-- For l1 in [1, 999999] the L2C stays in [1, 999999]. -/
theorem l2c_full (l1 : ℤ) (h1 : 1 ≤ l1) (h2 : l1 ≤ 999999) :
    ∃ l2c : ℤ,
      calc_l2c_from_l1 l1 =
        (some l2c, some (number_to_words_ru_0_999999 l1.toNat),
          some (normalize (stripWsHyphen (number_to_words_ru_0_999999 l1.toNat))),
          false) ∧ 1 ≤ l2c ∧ l2c ≤ 999999 := by
  rw [calc_l2c_in_range_eq l1 (by omega) h2]
  refine ⟨_, rfl, ?_, ?_⟩
  · have := (words_code_bounds l1.toNat (by omega) (by omega)).1
    exact_mod_cast this
  · have := (words_code_bounds l1.toNat (by omega) (by omega)).2
    have h45 : gcode (number_to_words_ru_0_999999 l1.toNat) ≤ 999999 := by omega
    exact_mod_cast h45

/-! ## Fractal unfolding (C6, C10) -/

theorem fractal_aux_succ_of (curr : ℤ) (n : ℕ) {l2c : ℤ} {W G : String}
    (hc : calc_l2c_from_l1 curr = (some l2c, some W, some G, false))
    {w Cv Hm Zv : ℝ} (hm : metrics curr l2c = some (w, Cv, Hm, Zv)) :
    fractal_w_aux curr (n + 1) = (fractal_w_aux l2c n).map (fun ws => w :: ws) := by
  simp only [fractal_w_aux, hc, hm]

theorem fractal_aux_le : ∀ (fuel : ℕ) (curr : ℤ) (ws : List ℝ),
    fractal_w_aux curr fuel = some ws → ws.length ≤ fuel := by
  intro fuel
  induction fuel with
  | zero =>
    intro curr ws h
    simp only [fractal_w_aux] at h
    injection h with h
    simp [← h]
  | succ n ih =>
    intro curr ws h
    simp only [fractal_w_aux] at h
    rcases hc : calc_l2c_from_l1 curr with ⟨o1, o2, o3, b⟩
    rw [hc] at h
    cases o1 with
    | none =>
      cases b <;> simp only [] at h <;> injection h with h <;> simp [← h]
    | some l2c =>
      cases b with
      | true =>
        simp only [] at h
        injection h with h
        simp [← h]
      | false =>
        simp only [] at h
        cases hm : metrics curr l2c with
        | none => rw [hm] at h; cases h
        | some tup =>
          obtain ⟨w, Cv, Hm, Zv⟩ := tup
          rw [hm] at h
          cases ha : fractal_w_aux l2c n with
          | none => rw [ha] at h; cases h
          | some ws' =>
            rw [ha] at h
            injection h with h
            rw [← h]
            simpa using Nat.succ_le_succ (ih l2c ws' ha)

theorem fractal_aux_full : ∀ (fuel : ℕ) (curr : ℤ), 1 ≤ curr → curr ≤ 999999 →
    ∃ ws, fractal_w_aux curr fuel = some ws ∧ ws.length = fuel := by
  intro fuel
  induction fuel with
  | zero => exact fun curr _ _ => ⟨[], rfl, rfl⟩
  | succ n ih =>
    intro curr h1 h2
    obtain ⟨l2c, hc, hb1, hb2⟩ := l2c_full curr h1 h2
    obtain ⟨w, Cv, Hm, Zv, hm⟩ := metrics_eq_some curr l2c (by omega) (by omega)
    obtain ⟨ws, ha, hlen⟩ := ih l2c hb1 hb2
    refine ⟨w :: ws, ?_, by simp [hlen]⟩
    rw [fractal_aux_succ_of curr n hc hm, ha]
    rfl

theorem curr_seq_bounds (l1 : ℤ) (h1 : 1 ≤ l1) (h2 : l1 ≤ 999999) :
    ∀ k : ℕ, 1 ≤ curr_seq l1 k ∧ curr_seq l1 k ≤ 999999 := by
  intro k
  induction k with
  | zero => exact ⟨h1, h2⟩
  | succ m ih =>
    obtain ⟨l2c, hc, hb1, hb2⟩ := l2c_full (curr_seq l1 m) ih.1 ih.2
    have hstep : curr_seq l1 (m + 1) = l2c := by
      show l2c_step (curr_seq l1 m) = l2c
      unfold l2c_step
      rw [hc]
      rfl
    rw [hstep]
    exact ⟨hb1, hb2⟩

theorem inter_in_range_of (l1 : ℤ) (h1 : 1 ≤ l1) (h2 : l1 ≤ 999999) :
    inter_in_range l1 = true := by
  unfold inter_in_range
  rw [List.all_eq_true]
  intro k _
  rw [decide_eq_true_eq]
  have hb := curr_seq_bounds l1 h1 h2 k
  exact ⟨by omega, hb.2⟩

/-- C6 counterexample: l1 = 0 satisfies the stated hypothesis (the
initial L1 and all intermediate L2C values are inside [0, 999999]) yet
`fractal_unfold(0)` raises ZeroDivisionError at the first `metrics` call
(modelled by `none`) instead of producing 12 W-values. -/
theorem fractal_zero_in_range_but_raises :
    ((0:ℤ) ≤ 0 ∧ (0:ℤ) ≤ 999999 ∧ inter_in_range 0 = true) ∧
      fractal_w_values 0 = none := by
  refine ⟨⟨le_refl 0, by norm_num, by decide⟩, ?_⟩
  have hc : calc_l2c_from_l1 0 = (some 72, some "НОЛЬ", some "НОЛЬ", false) := by
    decide
  show fractal_w_aux 0 (11 + 1) = none
  simp only [fractal_w_aux, hc, metrics_eq_none_of_l1_zero]

/-- C6 amended: fractal_unfold performs at most 12 iterations (its
W-sequence never exceeds 12 points), and whenever the initial l1 lies in
[1, 999999] — rather than [0, 999999]: at l1 = 0 the first metrics call
raises — and every intermediate L2C lies in [0, 999999], exactly 12
W-values are appended before the breath pattern is derived. -/
theorem fractal_unfold_le12_and_full :
    (∀ (l1 : ℤ) (ws : List ℝ), fractal_w_values l1 = some ws → ws.length ≤ 12) ∧
    (∀ l1 : ℤ, 1 ≤ l1 → l1 ≤ 999999 → inter_in_range l1 = true →
      ∃ ws, fractal_w_values l1 = some ws ∧ ws.length = 12) :=
  ⟨fun l1 ws h => fractal_aux_le 12 l1 ws h,
   fun l1 h1 h2 _ => fractal_aux_full 12 l1 h1 h2⟩

/-- Witness for C6 (amended) at l1 = 1. -/
theorem fractal_unfold_le12_and_full_witness :
    (1:ℤ) ≤ 1 ∧ (1:ℤ) ≤ 999999 ∧ inter_in_range 1 = true ∧
      ∃ ws, fractal_w_values 1 = some ws ∧ ws.length = 12 :=
  ⟨le_refl 1, by norm_num, by decide,
    fractal_unfold_le12_and_full.2 1 (le_refl 1) (by norm_num) (by decide)⟩

/-- C10: for every l1 in [1, 999999] the computed l2c lies in
[1, 999999]; consequently every iterate of the fractal recurrence stays
in range, the early-stop branch is never taken, and the W-sequence has
exactly 12 points. -/
theorem l2c_in_range_and_fractal_twelve :
    ∀ l1 : ℤ, 1 ≤ l1 → l1 ≤ 999999 →
      (∃ l2c, (calc_l2c_from_l1 l1).1 = some l2c ∧ 1 ≤ l2c ∧ l2c ≤ 999999) ∧
      inter_in_range l1 = true ∧
      ∃ ws, fractal_w_values l1 = some ws ∧ ws.length = 12 := by
  intro l1 h1 h2
  obtain ⟨l2c, hc, hb1, hb2⟩ := l2c_full l1 h1 h2
  exact ⟨⟨l2c, by rw [hc], hb1, hb2⟩, inter_in_range_of l1 h1 h2,
    fractal_aux_full 12 l1 h1 h2⟩

/-- Witness for C10 at l1 = 48 (the code of "СВЕТ"). -/
theorem l2c_in_range_and_fractal_twelve_witness :
    (1:ℤ) ≤ 48 ∧ (48:ℤ) ≤ 999999 ∧
      ((∃ l2c, (calc_l2c_from_l1 48).1 = some l2c ∧ 1 ≤ l2c ∧ l2c ≤ 999999) ∧
        inter_in_range 48 = true ∧
        ∃ ws, fractal_w_values 48 = some ws ∧ ws.length = 12) :=
  ⟨by norm_num, by norm_num,
    l2c_in_range_and_fractal_twelve 48 (by norm_num) (by norm_num)⟩

/-! ## Dedup recomputation (C3) -/

/-- Re-running the encoding pipeline (calc_l1_from_string,
calc_l2c_from_l1, metrics) on a word alone, producing the six derived
cells (l1, l2c, w, C, Hm, Z); the outer `none` models the pipeline
raising, and an out-of-range code yields the six Python-None cells. -/
noncomputable def recompute_derived (word : String) :
    Option (Option ℤ × Option ℤ × Option ℝ × Option ℝ × Option ℝ × Option ℝ) :=
  let l1 : ℤ := ((calc_l1_from_string word).2 : ℤ)
  match calc_l2c_from_l1 l1 with
  | (some l2c, _, _, false) =>
    match metrics l1 l2c with
    | none => none
    | some (w, Cv, Hm, Zv) =>
      some (some l1, some l2c, some w, some Cv, some Hm, some Zv)
  | _ => some (none, none, none, none, none, none)

theorem force_recalc_recompute (word sphere tone : String) (allowed : Bool)
    (notes : String) (field? role? : Option String) :
    recompute_derived word =
      (force_recalc_row word sphere tone allowed notes none none field? role?).map
        (fun r => (r.l1, r.l2c, r.w, r.C, r.Hm, r.Z)) := by
  unfold recompute_derived force_recalc_row
  dsimp only
  split
  · split
    · rfl
    · rfl
  · rfl

theorem force_recalc_word {word sphere tone : String} {allowed : Bool}
    {notes : String} {l1? l2c? : Option ℤ} {field? role? : Option String}
    {r : LibRow}
    (h : force_recalc_row word sphere tone allowed notes l1? l2c? field? role? =
      some r) : r.word = word := by
  unfold force_recalc_row at h
  dsimp only at h
  repeat' split at h
  all_goals first
    | (injection h with h; subst h; rfl)
    | cases h

theorem merge_group_ok_recompute {k : String × String × String}
    {rows : List LibRow} {r : LibRow} (h : merge_group k rows = .ok r) :
    recompute_derived r.word = some (r.l1, r.l2c, r.w, r.C, r.Hm, r.Z) := by
  unfold merge_group at h
  dsimp only at h
  by_cases hk : k.1 ≠ ""
  · rw [if_pos hk] at h
    by_cases hw : normalize (pyUpper (pyStrip k.1)) = ""
    · rw [if_pos hw] at h
      cases h
    · rw [if_neg hw] at h
      split at h
      · rename_i r0 hf
        injection h with h
        obtain rfl : r0 = r := h
        have hrec := force_recalc_recompute
          (normalize (pyUpper (pyStrip k.1)))
          (if k.2.1 ≠ "" then pyStrip k.2.1 else "прочее")
          (if k.2.2 ≠ "" then pyStrip k.2.2 else "neutral")
          (rows.any (·.allowed)) (uniq_notes (rows.map (·.notes)))
          (if pick_first_nonempty (rows.map (·.field)) ≠ "" then
            some (pick_first_nonempty (rows.map (·.field))) else none)
          (if pick_first_nonempty (rows.map (·.role)) ≠ "" then
            some (pick_first_nonempty (rows.map (·.role))) else none)
        rw [hf] at hrec
        rw [force_recalc_word hf]
        exact hrec
      · cases h
  · rw [if_neg hk, if_pos rfl] at h
    cases h

theorem soft_dedup_loop_rows :
    ∀ (df : List LibRow) (ks : List (String × String × String)) (ys : List LibRow),
      soft_dedup_loop df ks = some ys →
      ∀ r ∈ ys, ∃ k rows, merge_group k rows = .ok r := by
  intro df ks
  induction ks with
  | nil =>
    intro ys h r hr
    injection h with h
    rw [← h] at hr
    cases hr
  | cons k kt ih =>
    intro ys h r hr
    simp only [soft_dedup_loop] at h
    cases hm : merge_group k (df.filter fun r0 => key_of r0 = k) with
    | crash => rw [hm] at h; cases h
    | skip => rw [hm] at h; exact ih ys h r hr
    | ok r0 =>
      rw [hm] at h
      cases ha : soft_dedup_loop df kt with
      | none => rw [ha] at h; cases h
      | some rest =>
        rw [ha] at h
        injection h with h
        rw [← h] at hr
        rcases List.mem_cons.mp hr with rfl | hr2
        · exact ⟨k, _, hm⟩
        · exact ih rest ha r hr2

/-- C3: every row of the soft_dedup output carries derived numeric cells
(l1, l2c, w, C, Hm, Z) equal to what re-running the encoding pipeline
(calc_l1_from_string, calc_l2c_from_l1, metrics) on that row's word alone
produces — so none of them is ever copied from an input row of the group. -/
theorem soft_dedup_recomputes_derived :
    ∀ (df ys : List LibRow), soft_dedup df = some ys →
      ∀ r ∈ ys, recompute_derived r.word = some (r.l1, r.l2c, r.w, r.C, r.Hm, r.Z) := by
  intro df ys h r hr
  cases df with
  | nil =>
    injection h with h
    rw [← h] at hr
    cases hr
  | cons a t =>
    obtain ⟨k, rows, hm⟩ := soft_dedup_loop_rows (a :: t) (sorted_keys (a :: t)) ys h r hr
    exact merge_group_ok_recompute hm

/-! Witness material for C3: a concrete one-row collection and the row
soft_dedup produces for it, with all six derived values written out
(the code of СВЕТ is 48, the code of its spelling СОРОК ВОСЕМЬ is 167). -/

def c3df : List LibRow :=
  [⟨"СВЕТ", "природа", "neutral", true, "", "", "", none, none, none, none, none, none⟩]

noncomputable def c3w : ℝ := ((167 : ℤ) : ℝ) / ((48 : ℤ) : ℝ)

noncomputable def c3rv : ℝ :=
  |((167 : ℤ) : ℝ) - ((48 : ℤ) : ℝ)| / (((167 : ℤ) : ℝ) + ((48 : ℤ) : ℝ))

noncomputable def c3C : ℝ := Real.cos (Real.pi / 2 * c3rv) ^ 2

noncomputable def c3Hm : ℝ :=
  max 0 (min 1 (1 - min (|c3w - 1| / 1) (min (|c3w - 1.25| / 1.25)
    (min (|c3w - 1.33| / 1.33) (min (|c3w - 1.5| / 1.5)
      (min (|c3w - 2| / 2) (|c3w - 3| / 3)))))))

noncomputable def c3Z : ℝ :=
  max 0 (min 1 (c3C * c3Hm * Real.exp (-(((c3w - 2) / sigma_Z) ^ 2))))

noncomputable def c3row : LibRow :=
  ⟨"СВЕТ", "природа", "neutral", true, "", "", "", some 48, some 167,
    some c3w, some c3C, some c3Hm, some c3Z⟩

/-- Witness for C3 on the concrete collection c3df. -/
theorem soft_dedup_recomputes_derived_witness :
    soft_dedup c3df = some [c3row] ∧ c3row ∈ [c3row] ∧
      recompute_derived c3row.word =
        some (c3row.l1, c3row.l2c, c3row.w, c3row.C, c3row.Hm, c3row.Z) :=
  ⟨by rfl, by simp,
    soft_dedup_recomputes_derived c3df [c3row] (by rfl) c3row (by simp)⟩

/-! ## Character and string fixpoint lemmas (C4) -/

theorem kryon_pos_aux : ∀ n < 1072, ((1040 ≤ n ∧ n ≤ 1071) ∨ n = 1025) →
    1 ≤ kryonCode n := by decide

theorem isRu_toNat {c : Char} (h : isRuLetter c = true) :
    (1040 ≤ c.toNat ∧ c.toNat ≤ 1071) ∨ c.toNat = 1025 := by
  unfold isRuLetter at h
  simp only [Bool.or_eq_true, Bool.and_eq_true, decide_eq_true_eq, beq_iff_eq] at h
  exact h

theorem kryon_pos {c : Char} (h : isRuLetter c = true) : 1 ≤ kryonMap c :=
  kryon_pos_aux c.toNat (by have := isRu_toNat h; omega) (isRu_toNat h)

theorem ruUpper_fix {c : Char} (h : isRuLetter c = true) : ruUpperChar c = c := by
  have hn := isRu_toNat h
  unfold ruUpperChar
  rw [if_neg (by omega), if_neg (by omega), if_neg (by omega)]

theorem isPySpace_false {c : Char} (h : isRuLetter c = true) : isPySpace c = false := by
  have hn := isRu_toNat h
  unfold isPySpace
  simp only [Bool.or_eq_false_iff, beq_eq_false_iff_ne, ne_eq]
  omega

theorem normalize_chars_ru (s : String) : ∀ c ∈ (normalize s).data, isRuLetter c = true :=
  fun _ hc => List.of_mem_filter hc

theorem dropWhile_all_false {α : Type} {p : α → Bool} {l : List α}
    (h : ∀ c ∈ l, p c = false) : l.dropWhile p = l := by
  cases l with
  | nil => rfl
  | cons a t => rw [List.dropWhile_cons, if_neg (by simp [h a (List.mem_cons_self a t)])]

theorem data_ne_nil_of_ne_empty {s : String} (h : s ≠ "") : s.data ≠ [] := by
  intro hd
  apply h
  cases s with
  | mk d =>
    have hdd : d = [] := hd
    rw [hdd]

theorem pyStrip_fix_of_ru {s : String} (h : ∀ c ∈ s.data, isRuLetter c = true) :
    pyStrip s = s := by
  unfold pyStrip
  rw [dropWhile_all_false (fun c hc => isPySpace_false (h c hc)),
    dropWhile_all_false (fun c hc => isPySpace_false (h c (List.mem_reverse.mp hc))),
    List.reverse_reverse]

theorem pyUpper_fix_of_ru {s : String} (h : ∀ c ∈ s.data, isRuLetter c = true) :
    pyUpper s = s := by
  show (⟨s.data.map ruUpperChar⟩ : String) = s
  rw [List.map_congr_left (fun c hc => ruUpper_fix (h c hc))]
  show (⟨s.data.map id⟩ : String) = s
  rw [List.map_id]

theorem normalize_fix_of_ru {s : String} (h : ∀ c ∈ s.data, isRuLetter c = true) :
    normalize s = s := by
  unfold normalize
  rw [pyUpper_fix_of_ru h, List.filter_eq_self.mpr h]

theorem codeOf_pos {s : String} (hne : s ≠ "")
    (h : ∀ c ∈ s.data, isRuLetter c = true) : 1 ≤ codeOf s := by
  unfold codeOf
  cases hd : s.data with
  | nil => exact absurd hd (data_ne_nil_of_ne_empty hne)
  | cons a t =>
    have ha := kryon_pos (h a (by rw [hd]; exact List.mem_cons_self a t))
    simp only [List.map_cons, List.sum_cons]
    omega

theorem dropWhile_dropWhile {α : Type} (p : α → Bool) (l : List α) :
    (l.dropWhile p).dropWhile p = l.dropWhile p := by
  induction l with
  | nil => rfl
  | cons a t ih =>
    rw [List.dropWhile_cons]
    split_ifs with h
    · exact ih
    · rw [List.dropWhile_cons, if_neg h]

theorem dropWhile_self_head {α : Type} {p : α → Bool} {l : List α} {a : α} {t : List α}
    (h : l.dropWhile p = a :: t) : p a = false := by
  induction l with
  | nil => cases h
  | cons b t' ih =>
    rw [List.dropWhile_cons] at h
    split_ifs at h with hb
    · exact ih h
    · injection h with h1 _
      rw [← h1]
      simpa using hb

theorem getLast?_dropWhile {α : Type} (p : α → Bool) (x : List α)
    (hne : x.dropWhile p ≠ []) : (x.dropWhile p).getLast? = x.getLast? := by
  obtain ⟨pre, hpre⟩ := List.dropWhile_suffix (l := x) p
  conv_rhs => rw [← hpre]
  rw [List.getLast?_append_of_ne_nil pre hne]

theorem strip_list_idem (p : Char → Bool) (l : List Char) :
    (((((((l.dropWhile p).reverse.dropWhile p).reverse).dropWhile p).reverse).dropWhile p).reverse) =
      ((l.dropWhile p).reverse.dropWhile p).reverse := by
  set y := l.dropWhile p with hy
  set w := y.reverse.dropWhile p with hw
  have hzd : w.reverse.dropWhile p = w.reverse := by
    cases hz : w.reverse with
    | nil => rfl
    | cons a t =>
      have hwne : w ≠ [] := by
        intro h0
        rw [h0] at hz
        cases hz
      have h1 : w.getLast? = y.reverse.getLast? := by
        rw [hw]
        exact getLast?_dropWhile p y.reverse (hw ▸ hwne)
      have h2 : y.reverse.getLast? = y.head? := by
        rw [← List.head?_reverse, List.reverse_reverse]
      have h3 : w.reverse.head? = w.getLast? := List.head?_reverse w
      have hha : w.reverse.head? = some a := by rw [hz]; rfl
      have hyh : y.head? = some a := by rw [← h2, ← h1, ← h3, hha]
      cases hyy : y with
      | nil => rw [hyy] at hyh; cases hyh
      | cons b t' =>
        have hab : b = a := by
          rw [hyy] at hyh
          injection hyh
        have hpb : p b = false := dropWhile_self_head (hy.symm ▸ hyy)
        rw [List.dropWhile_cons, if_neg (by rw [← hab]; simp [hpb])]
  rw [hzd, List.reverse_reverse, hw, dropWhile_dropWhile]

theorem pyStrip_idem (s : String) : pyStrip (pyStrip s) = pyStrip s :=
  congrArg String.mk (strip_list_idem isPySpace s.data)

/-! ## Join / pick / notes lemmas (C4) -/

theorem length_dropWhile_le {α : Type} (p : α → Bool) (l : List α) :
    (l.dropWhile p).length ≤ l.length :=
  (List.dropWhile_suffix p).length_le

theorem opt_getD_self (x : String) : (if x ≠ "" then some x else none).getD "" = x := by
  split_ifs with h
  · rfl
  · push_neg at h
    rw [h]
    rfl

theorem pick_single (x : String) : pick_first_nonempty [x] = pyStrip x := by
  unfold pick_first_nonempty
  dsimp only
  split_ifs with h
  · rfl
  · push_neg at h
    rw [h]
    decide

theorem pick_stripped (l : List String) :
    pyStrip (pick_first_nonempty l) = pick_first_nonempty l := by
  induction l with
  | nil => rfl
  | cons x t ih =>
    unfold pick_first_nonempty
    dsimp only
    split_ifs with h
    · exact pyStrip_idem x
    · exact ih

theorem uniq_list_inv : ∀ (l acc : List String),
    (∀ s ∈ acc, s ≠ "" ∧ pyStrip s = s) →
    ∀ s ∈ uniq_notes_list acc l, s ≠ "" ∧ pyStrip s = s := by
  intro l
  induction l with
  | nil => intro acc hacc s hs; exact hacc s hs
  | cons x t ih =>
    intro acc hacc s hs
    unfold uniq_notes_list at hs
    dsimp only at hs
    split_ifs at hs with h
    · refine ih _ ?_ s hs
      intro s2 hs2
      rcases List.mem_append.mp hs2 with h1 | h1
      · exact hacc s2 h1
      · rw [List.mem_singleton.mp h1]
        exact ⟨h.1, pyStrip_idem x⟩
    · exact ih acc hacc s hs

theorem joinSep_head_data (sep : String) (x : String) (l : List String)
    (hx : x.data ≠ []) : (joinSep sep (x :: l)).data.head? = x.data.head? := by
  cases l with
  | nil => rfl
  | cons y t =>
    show ((x ++ sep) ++ joinSep sep (y :: t)).data.head? = _
    rw [String.data_append, String.data_append, List.append_assoc, List.head?_append]
    cases hxx : x.data with
    | nil => exact absurd hxx hx
    | cons a t2 => rfl

theorem joinSep_data_ne_nil (sep : String) (x : String) (l : List String)
    (hx : x.data ≠ []) : (joinSep sep (x :: l)).data ≠ [] := by
  intro h0
  have hh := joinSep_head_data sep x l hx
  rw [h0] at hh
  cases hxx : x.data with
  | nil => exact hx hxx
  | cons a t => rw [hxx] at hh; cases hh

theorem joinSep_getLast_data (sep : String) :
    ∀ (l : List String) (x : String), (∀ s ∈ x :: l, s.data ≠ []) →
      ∃ z, z ∈ x :: l ∧ (joinSep sep (x :: l)).data.getLast? = z.data.getLast? := by
  intro l
  induction l with
  | nil => intro x _; exact ⟨x, by simp, rfl⟩
  | cons y t ih =>
    intro x h
    obtain ⟨z, hz, hzl⟩ := ih y (fun s hs => h s (List.mem_cons_of_mem x hs))
    refine ⟨z, List.mem_cons_of_mem x hz, ?_⟩
    show ((x ++ sep) ++ joinSep sep (y :: t)).data.getLast? = _
    rw [String.data_append,
      List.getLast?_append_of_ne_nil _
        (joinSep_data_ne_nil sep y t (h y (by simp)))]
    exact hzl

theorem pyStrip_fix_of_ends {s : String}
    (h1 : ∀ a, s.data.head? = some a → isPySpace a = false)
    (h2 : ∀ a, s.data.getLast? = some a → isPySpace a = false) :
    pyStrip s = s := by
  unfold pyStrip
  have hd : s.data.dropWhile isPySpace = s.data := by
    cases hc : s.data with
    | nil => rfl
    | cons a t =>
      rw [List.dropWhile_cons, if_neg (by simp [h1 a (by rw [hc]; rfl)])]
  rw [hd]
  have hd2 : s.data.reverse.dropWhile isPySpace = s.data.reverse := by
    cases hc : s.data.reverse with
    | nil => rfl
    | cons a t =>
      have hla : s.data.getLast? = some a := by
        rw [← List.head?_reverse, hc]
        rfl
      rw [List.dropWhile_cons, if_neg (by simp [h2 a hla])]
  rw [hd2, List.reverse_reverse]

theorem string_strip_ends {s : String} (hstr : pyStrip s = s) :
    (∀ a, s.data.head? = some a → isPySpace a = false) ∧
    (∀ a, s.data.getLast? = some a → isPySpace a = false) := by
  have hdata : ((s.data.dropWhile isPySpace).reverse.dropWhile isPySpace).reverse
      = s.data := congrArg String.data hstr
  have hlen1 : (s.data.dropWhile isPySpace).length ≤ s.data.length :=
    length_dropWhile_le _ _
  have hlen2 : ((s.data.dropWhile isPySpace).reverse.dropWhile isPySpace).length ≤
      (s.data.dropWhile isPySpace).length := by
    have := length_dropWhile_le isPySpace (s.data.dropWhile isPySpace).reverse
    simpa using this
  have hlenEq : (((s.data.dropWhile isPySpace).reverse.dropWhile isPySpace).reverse).length
      = s.data.length := by rw [hdata]
  simp only [List.length_reverse] at hlenEq
  have hyy : s.data.dropWhile isPySpace = s.data :=
    (List.dropWhile_suffix isPySpace).eq_of_length (by omega)
  have hww : (s.data.dropWhile isPySpace).reverse.dropWhile isPySpace =
      (s.data.dropWhile isPySpace).reverse :=
    (List.dropWhile_suffix isPySpace).eq_of_length (by
      simp only [List.length_reverse]
      omega)
  constructor
  · intro a ha
    cases hc : s.data with
    | nil => rw [hc] at ha; cases ha
    | cons b t =>
      have hpb : isPySpace b = false := dropWhile_self_head (by rw [hyy, hc])
      rw [hc] at ha
      injection ha with ha
      rw [← ha]
      exact hpb
  · intro a ha
    rw [hyy] at hww
    cases hc : s.data.reverse with
    | nil =>
      rw [← List.head?_reverse, hc] at ha
      cases ha
    | cons b t =>
      have hpb : isPySpace b = false := dropWhile_self_head (by rw [hww, hc])
      rw [← List.head?_reverse, hc] at ha
      injection ha with ha
      rw [← ha]
      exact hpb

theorem uniq_notes_stripped (l : List String) :
    pyStrip (uniq_notes l) = uniq_notes l := by
  unfold uniq_notes
  have hinv := uniq_list_inv l [] (by simp)
  cases hq : uniq_notes_list [] l with
  | nil => rfl
  | cons x t =>
    have hall : ∀ s ∈ x :: t, s ≠ "" ∧ pyStrip s = s := by
      rw [← hq]
      exact hinv
    have hdata : ∀ s ∈ x :: t, s.data ≠ [] :=
      fun s hs => data_ne_nil_of_ne_empty (hall s hs).1
    apply pyStrip_fix_of_ends
    · intro a ha
      rw [joinSep_head_data " | " x t (hdata x (by simp))] at ha
      exact (string_strip_ends (hall x (by simp)).2).1 a ha
    · intro a ha
      obtain ⟨z, hz, hzl⟩ := joinSep_getLast_data " | " t x hdata
      rw [hzl] at ha
      exact (string_strip_ends (hall z hz).2).2 a ha

theorem notes_clean_eq_of_nan {n : String} (h : pyLower (pyStrip n) = "nan") :
    notes_clean n = "" := by
  unfold notes_clean
  dsimp only
  rw [if_pos h]

theorem notes_clean_eq_of_not_nan {n : String} (h : ¬ pyLower (pyStrip n) = "nan") :
    notes_clean n = pyStrip n := by
  unfold notes_clean
  dsimp only
  rw [if_neg h]

theorem notes_clean_stripped (n : String) :
    pyStrip (notes_clean n) = notes_clean n := by
  by_cases h : pyLower (pyStrip n) = "nan"
  · rw [notes_clean_eq_of_nan h]
    decide
  · rw [notes_clean_eq_of_not_nan h]
    exact pyStrip_idem n

theorem notes_clean_idem (n : String) :
    notes_clean (notes_clean n) = notes_clean n := by
  by_cases h : pyLower (pyStrip n) = "nan"
  · rw [notes_clean_eq_of_nan h]
    decide
  · rw [notes_clean_eq_of_not_nan h]
    unfold notes_clean
    dsimp only
    rw [pyStrip_idem n, if_neg h]

theorem uniq_single (x : String) : uniq_notes [x] = pyStrip x := by
  unfold uniq_notes uniq_notes_list
  dsimp only
  split_ifs with h
  · rfl
  · push_neg at h
    by_cases hx : pyStrip x = ""
    · rw [hx]
      rfl
    · exact absurd (h hx) (List.not_mem_nil _)

/-! ## Stability of force_recalc_row and merge_group (C4) -/

theorem force_recalc_base_fields {word sphere tone : String} {allowed : Bool}
    {notes : String} {l1? l2c? : Option ℤ} {field? role? : Option String}
    {r : LibRow}
    (h : force_recalc_row word sphere tone allowed notes l1? l2c? field? role? =
      some r) :
    r.word = word ∧ r.sphere = sphere ∧ r.tone = tone ∧ r.allowed = allowed := by
  unfold force_recalc_row at h
  dsimp only at h
  repeat' split at h
  all_goals first
    | (injection h with h; subst h; exact ⟨rfl, rfl, rfl, rfl⟩)
    | cases h

theorem force_recalc_some_of_word {wn : String} (hne : wn ≠ "")
    (hru : ∀ c ∈ wn.data, isRuLetter c = true)
    (sphere tone : String) (allowed : Bool) (notes : String)
    (f? r? : Option String) :
    ∃ r, force_recalc_row wn sphere tone allowed notes none none f? r? = some r := by
  unfold force_recalc_row
  dsimp only
  have hl1 : (calc_l1_from_string wn).2 = codeOf wn := by
    unfold calc_l1_from_string
    dsimp only
    rw [normalize_fix_of_ru hru, if_neg hne]
  have hpos : 1 ≤ codeOf wn := codeOf_pos hne hru
  have hposz : (1 : ℤ) ≤ ((calc_l1_from_string wn).2 : ℤ) := by
    rw [hl1]
    exact_mod_cast hpos
  by_cases hr : ((calc_l1_from_string wn).2 : ℤ) > 999999
  · have hcc : calc_l2c_from_l1 ((calc_l1_from_string wn).2 : ℤ) =
        (none, none, none, true) := by
      unfold calc_l2c_from_l1
      rw [if_pos (Or.inr hr)]
    rw [hcc]
    exact ⟨_, rfl⟩
  · push_neg at hr
    rw [calc_l2c_in_range_eq _ (by omega) hr]
    dsimp only
    have hc2 : (0:ℤ) ≤ (codeOf (normalize (stripWsHyphen (number_to_words_ru_0_999999
        ((calc_l1_from_string wn).2 : ℤ).toNat))) : ℤ) := by positivity
    obtain ⟨w, Cv, Hm, Zv, hm⟩ := metrics_eq_some ((calc_l1_from_string wn).2 : ℤ)
      (codeOf (normalize (stripWsHyphen (number_to_words_ru_0_999999
        ((calc_l1_from_string wn).2 : ℤ).toNat))) : ℤ) (by omega) (by omega)
    rw [hm]
    exact ⟨_, rfl⟩

theorem force_recalc_stable {w s t : String} {a : Bool} {n : String}
    {f? r? : Option String} {r : LibRow}
    (hn : pyStrip n = n)
    (hf : pyStrip (f?.getD "") = f?.getD "")
    (hr : pyStrip (r?.getD "") = r?.getD "")
    (h : force_recalc_row w s t a n none none f? r? = some r) :
    force_recalc_row w s t r.allowed (pyStrip r.notes) none none
      (if pyStrip r.field ≠ "" then some (pyStrip r.field) else none)
      (if pyStrip r.role ≠ "" then some (pyStrip r.role) else none) = some r := by
  unfold force_recalc_row at h ⊢
  dsimp only at h ⊢
  split at h
  · split at h
    · cases h
    · injection h with h
      subst h
      dsimp only
      simp only [opt_getD_self, pyStrip_idem, notes_clean_stripped, notes_clean_idem]
  · injection h with h
    subst h
    dsimp only
    simp only [opt_getD_self, hn, hf, hr]

theorem merge_group_run (k : String × String × String) (rows : List LibRow)
    (hk1 : k.1 ≠ "") (hne : normalize (pyUpper (pyStrip k.1)) ≠ "") :
    ∃ r, merge_group k rows = .ok r ∧
      force_recalc_row (normalize (pyUpper (pyStrip k.1)))
        (if k.2.1 ≠ "" then pyStrip k.2.1 else "прочее")
        (if k.2.2 ≠ "" then pyStrip k.2.2 else "neutral")
        (rows.any (·.allowed)) (uniq_notes (rows.map (·.notes))) none none
        (if pick_first_nonempty (rows.map (·.field)) ≠ "" then
          some (pick_first_nonempty (rows.map (·.field))) else none)
        (if pick_first_nonempty (rows.map (·.role)) ≠ "" then
          some (pick_first_nonempty (rows.map (·.role))) else none) = some r := by
  obtain ⟨r, hfr⟩ := force_recalc_some_of_word hne (normalize_chars_ru _)
    (if k.2.1 ≠ "" then pyStrip k.2.1 else "прочее")
    (if k.2.2 ≠ "" then pyStrip k.2.2 else "neutral")
    (rows.any (·.allowed)) (uniq_notes (rows.map (·.notes)))
    (if pick_first_nonempty (rows.map (·.field)) ≠ "" then
      some (pick_first_nonempty (rows.map (·.field))) else none)
    (if pick_first_nonempty (rows.map (·.role)) ≠ "" then
      some (pick_first_nonempty (rows.map (·.role))) else none)
  refine ⟨r, ?_, hfr⟩
  unfold merge_group
  dsimp only
  rw [if_pos hk1, if_neg hne, hfr]

/-- A row or key whose word is already normalized (non-empty) and whose
sphere/tone are already stripped (non-empty): on these the group key is a
fixpoint of the canonicalization soft_dedup applies. -/
def canonical_key (k : String × String × String) : Prop :=
  k.1 ≠ "" ∧ normalize k.1 = k.1 ∧ k.2.1 ≠ "" ∧ pyStrip k.2.1 = k.2.1 ∧
    k.2.2 ≠ "" ∧ pyStrip k.2.2 = k.2.2

theorem word_norm_canonical {k1 : String} (hfix : normalize k1 = k1) :
    normalize (pyUpper (pyStrip k1)) = k1 := by
  have hru : ∀ c ∈ k1.data, isRuLetter c = true := by
    intro c hc
    rw [← hfix] at hc
    exact normalize_chars_ru k1 c hc
  rw [pyStrip_fix_of_ru hru, pyUpper_fix_of_ru hru, hfix]

theorem merge_group_canonical (k : String × String × String) (rows : List LibRow)
    (hk : canonical_key k) :
    ∃ r, merge_group k rows = .ok r ∧ key_of r = k ∧
      merge_group (key_of r) [r] = .ok r := by
  obtain ⟨hk1, hwfix, hs1, hs2, ht1, ht2⟩ := hk
  have hwn : normalize (pyUpper (pyStrip k.1)) = k.1 := word_norm_canonical hwfix
  have hne : normalize (pyUpper (pyStrip k.1)) ≠ "" := by rw [hwn]; exact hk1
  obtain ⟨r, hmr, hfr⟩ := merge_group_run k rows hk1 hne
  have hbf := force_recalc_base_fields hfr
  have hword : r.word = k.1 := by rw [hbf.1, hwn]
  have hsphere : r.sphere = k.2.1 := by rw [hbf.2.1, if_pos hs1, hs2]
  have htone : r.tone = k.2.2 := by rw [hbf.2.2.1, if_pos ht1, ht2]
  have hkey : key_of r = k := by
    unfold key_of
    rw [hword, hsphere, htone]
  refine ⟨r, hmr, hkey, ?_⟩
  rw [hkey]
  unfold merge_group
  dsimp only
  rw [if_pos hk1, if_neg hne]
  have hmap_n : ([r].map (·.notes)) = [r.notes] := rfl
  have hmap_f : ([r].map (·.field)) = [r.field] := rfl
  have hmap_r : ([r].map (·.role)) = [r.role] := rfl
  rw [hmap_n, hmap_f, hmap_r, uniq_single, pick_single, pick_single]
  have hany : ([r].any (·.allowed)) = r.allowed := by simp
  rw [hany]
  have hstable := force_recalc_stable (uniq_notes_stripped _)
    (by rw [opt_getD_self]; exact pick_stripped _)
    (by rw [opt_getD_self]; exact pick_stripped _) hfr
  rw [hstable]

/-! ## Key ordering and the dedup loop (C4) -/

instance : IsTotal (String × String × String) key_le := ⟨by
  intro a b
  rcases lt_trichotomy a.1 b.1 with h | h | h
  · exact Or.inl (Or.inl h)
  · rcases lt_trichotomy a.2.1 b.2.1 with h2 | h2 | h2
    · exact Or.inl (Or.inr ⟨h, Or.inl h2⟩)
    · rcases le_total a.2.2 b.2.2 with h3 | h3
      · exact Or.inl (Or.inr ⟨h, Or.inr ⟨h2, h3⟩⟩)
      · exact Or.inr (Or.inr ⟨h.symm, Or.inr ⟨h2.symm, h3⟩⟩)
    · exact Or.inr (Or.inr ⟨h.symm, Or.inl h2⟩)
  · exact Or.inr (Or.inl h)⟩

instance : IsTrans (String × String × String) key_le := ⟨by
  rintro a b c (h1 | ⟨e1, h1⟩) (h2 | ⟨e2, h2⟩)
  · exact Or.inl (lt_trans h1 h2)
  · exact Or.inl (lt_of_lt_of_le h1 (le_of_eq e2))
  · exact Or.inl (lt_of_le_of_lt (le_of_eq e1) h2)
  · refine Or.inr ⟨e1.trans e2, ?_⟩
    rcases h1 with h1 | ⟨f1, h1⟩ <;> rcases h2 with h2 | ⟨f2, h2⟩
    · exact Or.inl (lt_trans h1 h2)
    · exact Or.inl (lt_of_lt_of_le h1 (le_of_eq f2))
    · exact Or.inl (lt_of_le_of_lt (le_of_eq f1) h2)
    · exact Or.inr ⟨f1.trans f2, le_trans h1 h2⟩⟩

theorem soft_dedup_loop_canonical :
    ∀ (df : List LibRow) (ks : List (String × String × String)),
      (∀ k ∈ ks, canonical_key k) →
      ∃ ys, soft_dedup_loop df ks = some ys ∧ ys.map key_of = ks ∧
        ∀ r ∈ ys, merge_group (key_of r) [r] = .ok r := by
  intro df ks
  induction ks with
  | nil => exact fun _ => ⟨[], rfl, rfl, by simp⟩
  | cons k kt ih =>
    intro hck
    obtain ⟨r, hmr, hkey, hstab⟩ := merge_group_canonical k
      (df.filter (fun r0 => key_of r0 = k)) (hck k (List.mem_cons_self k kt))
    obtain ⟨ys, hys, hmap, hst⟩ := ih (fun k2 hk2 => hck k2 (List.mem_cons_of_mem k hk2))
    refine ⟨r :: ys, ?_, ?_, ?_⟩
    · simp only [soft_dedup_loop]
      rw [hmr, hys]
      rfl
    · simp [hkey, hmap]
    · intro r2 hr2
      rcases List.mem_cons.mp hr2 with rfl | hr2
      · exact hstab
      · exact hst r2 hr2

theorem filter_key_singleton :
    ∀ (YS : List LibRow), (YS.map key_of).Nodup →
      ∀ r ∈ YS, YS.filter (fun x => key_of x = key_of r) = [r] := by
  intro YS
  induction YS with
  | nil => intro _ r hr; cases hr
  | cons a t ih =>
    intro hnd r hr
    have hnd2 : (t.map key_of).Nodup := (List.nodup_cons.mp hnd).2
    have hka : key_of a ∉ t.map key_of := (List.nodup_cons.mp hnd).1
    rcases List.mem_cons.mp hr with rfl | hrt
    · rw [List.filter_cons_of_pos (by simp)]
      have ht0 : t.filter (fun x => key_of x = key_of r) = [] := by
        rw [List.filter_eq_nil_iff]
        intro x hx
        simp only [decide_eq_true_eq]
        intro he
        exact hka (he ▸ List.mem_map_of_mem key_of hx)
      rw [ht0]
    · have hne : key_of a ≠ key_of r :=
        fun he => hka (he ▸ List.mem_map_of_mem key_of hrt)
      rw [List.filter_cons_of_neg (by simp [hne])]
      exact ih hnd2 r hrt

theorem soft_dedup_loop_self (YS : List LibRow) (hnd : (YS.map key_of).Nodup)
    (hok : ∀ r ∈ YS, merge_group (key_of r) [r] = .ok r) :
    ∀ sub : List LibRow, sub.Sublist YS →
      soft_dedup_loop YS (sub.map key_of) = some sub := by
  intro sub
  induction sub with
  | nil => intro _; rfl
  | cons r rt ih =>
    intro hsub
    have hr : r ∈ YS := hsub.subset (List.mem_cons_self r rt)
    simp only [List.map_cons, soft_dedup_loop]
    rw [filter_key_singleton YS hnd r hr, hok r hr,
      ih (List.sublist_of_cons_sublist hsub)]
    rfl

theorem sorted_keys_nodup (df : List LibRow) : (sorted_keys df).Nodup :=
  ((List.perm_insertionSort key_le _).nodup_iff).mpr (List.nodup_dedup _)

theorem sorted_keys_sorted (df : List LibRow) :
    List.Sorted key_le (sorted_keys df) :=
  List.sorted_insertionSort key_le _

/-- C4 amended: soft_dedup is idempotent on every collection whose rows
already carry canonical group keys (word normalized and non-empty,
sphere and tone stripped and non-empty); without that restriction a
second pass can merge rows whose keys only became equal through the
first pass's canonicalization. -/
theorem soft_dedup_idempotent_on_canonical :
    ∀ df : List LibRow,
      (∀ r ∈ df, r.word ≠ "" ∧ normalize r.word = r.word ∧ r.sphere ≠ "" ∧
        pyStrip r.sphere = r.sphere ∧ r.tone ≠ "" ∧ pyStrip r.tone = r.tone) →
      ∃ ys, soft_dedup df = some ys ∧ soft_dedup ys = some ys := by
  intro df hcan
  cases df with
  | nil => exact ⟨[], rfl, rfl⟩
  | cons a t =>
    have hck : ∀ k ∈ sorted_keys (a :: t), canonical_key k := by
      intro k hk
      unfold sorted_keys at hk
      rw [List.mem_insertionSort, List.mem_dedup] at hk
      obtain ⟨r, hr, rfl⟩ := List.mem_map.mp hk
      exact hcan r hr
    obtain ⟨ys, hys, hmap, hok⟩ := soft_dedup_loop_canonical (a :: t) _ hck
    have hnd : (ys.map key_of).Nodup := by
      rw [hmap]
      exact sorted_keys_nodup _
    refine ⟨ys, hys, ?_⟩
    cases ys with
    | nil => rfl
    | cons y yt =>
      show soft_dedup_loop (y :: yt) (sorted_keys (y :: yt)) = some (y :: yt)
      have hsk : sorted_keys (y :: yt) = (y :: yt).map key_of := by
        unfold sorted_keys
        rw [List.Nodup.dedup hnd, hmap]
        exact (sorted_keys_sorted (a :: t)).insertionSort_eq
      rw [hsk]
      exact soft_dedup_loop_self (y :: yt) hnd hok (y :: yt) (List.Sublist.refl _)

def c4df : List LibRow :=
  [⟨"МИР", "природа", "neutral", true, "", "", "", none, none, none, none, none, none⟩]

/-- Witness for C4 (amended) on the concrete canonical one-row collection c4df. -/
theorem soft_dedup_idempotent_on_canonical_witness :
    (∀ r ∈ c4df, r.word ≠ "" ∧ normalize r.word = r.word ∧ r.sphere ≠ "" ∧
      pyStrip r.sphere = r.sphere ∧ r.tone ≠ "" ∧ pyStrip r.tone = r.tone) ∧
    ∃ ys, soft_dedup c4df = some ys ∧ soft_dedup ys = some ys :=
  ⟨by decide, soft_dedup_idempotent_on_canonical c4df (by decide)⟩

/-! C4 counterexample material: the same word in two letter-cases under
one sphere/tone.  The first pass keeps two groups (the raw keys differ),
both canonicalized to word СВЕТ; the second pass merges them into one
row, so dedup of dedup differs from dedup. -/

def c4badA : LibRow :=
  ⟨"СВЕТ", "природа", "neutral", true, "", "", "", none, none, none, none, none, none⟩

def c4badB : LibRow :=
  ⟨"свет", "природа", "neutral", true, "", "", "", none, none, none, none, none, none⟩

def c4bad : List LibRow := [c4badA, c4badB]

def c4keyA : String × String × String := ("СВЕТ", "природа", "neutral")

def c4keyB : String × String × String := ("свет", "природа", "neutral")

/-- C4 counterexample: on the two-row collection c4bad, running
soft_dedup twice (composed through the exception monad) does not equal
running it once — the first pass returns two rows, the second collapses
them to one. -/
theorem soft_dedup_not_idempotent_counterexample :
    Option.bind (soft_dedup c4bad) soft_dedup ≠ soft_dedup c4bad := by
  have hko : key_le c4keyA c4keyB :=
    Or.inl (String.lt_iff_toList_lt.mpr (by decide))
  have hsk : sorted_keys c4bad = [c4keyA, c4keyB] := by
    unfold sorted_keys
    rw [show (c4bad.map key_of).dedup = [c4keyA, c4keyB] from by decide]
    simp only [List.insertionSort, List.orderedInsert]
    rw [if_pos hko]
  obtain ⟨r1, hm1, hf1⟩ := merge_group_run c4keyA
    (c4bad.filter (fun r => key_of r = c4keyA)) (by decide) (by decide)
  obtain ⟨r2, hm2, hf2⟩ := merge_group_run c4keyB
    (c4bad.filter (fun r => key_of r = c4keyB)) (by decide) (by decide)
  have hb1 := force_recalc_base_fields hf1
  have hb2 := force_recalc_base_fields hf2
  have hk1 : key_of r1 = c4keyA := by
    unfold key_of
    rw [hb1.1, hb1.2.1, hb1.2.2.1]
    decide
  have hk2 : key_of r2 = c4keyA := by
    unfold key_of
    rw [hb2.1, hb2.2.1, hb2.2.2.1]
    decide
  have hys : soft_dedup c4bad = some [r1, r2] := by
    show soft_dedup_loop c4bad (sorted_keys c4bad) = some [r1, r2]
    rw [hsk]
    simp only [soft_dedup_loop]
    rw [hm1, hm2]
    rfl
  have hsk2 : sorted_keys [r1, r2] = [c4keyA] := by
    unfold sorted_keys
    rw [show ([r1, r2].map key_of) = [c4keyA, c4keyA] by
      rw [List.map_cons, List.map_cons, List.map_nil, hk1, hk2]]
    rw [show ([c4keyA, c4keyA] : List (String × String × String)).dedup = [c4keyA]
      from by decide]
    simp only [List.insertionSort, List.orderedInsert]
  obtain ⟨r3, hm3, hf3⟩ := merge_group_run c4keyA
    ([r1, r2].filter (fun r => key_of r = c4keyA)) (by decide) (by decide)
  have hys2 : soft_dedup [r1, r2] = some [r3] := by
    show soft_dedup_loop [r1, r2] (sorted_keys [r1, r2]) = some [r3]
    rw [hsk2]
    simp only [soft_dedup_loop]
    rw [hm3]
    rfl
  rw [hys]
  show soft_dedup [r1, r2] ≠ some [r1, r2]
  rw [hys2]
  intro heq
  injection heq with heq
  have : ([r3] : List LibRow).length = ([r1, r2] : List LibRow).length :=
    congrArg List.length heq
  simp at this

end QuantumEncoder
